import Mathlib

set_option autoImplicit false

/-!
Shallow embedding of the script formatter in `format_ruby_movie.py`.

The program turns a ruby-annotated script text into stage-play markup.
Strings are modelled as `List Char`; the Python string helpers used by the
source (`str.strip`, `str.rstrip`, `str.splitlines`, `str.split`,
`str.rfind`, slicing) are reproduced on that representation, and the two
regular expressions (`RUBY_RE`, `SKIP_RE`) are modelled by explicit
deterministic scanners with the same matching behaviour.
-/

/-- Whitespace as recognised by Python `str.isspace` (used by `strip`,
`rstrip` and the `\s` class of `SKIP_RE`). -/
def isPySpace (c : Char) : Bool :=
  c == ' ' || c == '\t' || c == '\n' || c == '\r' || c == '\x0b' || c == '\x0c' ||
  c == '\x1c' || c == '\x1d' || c == '\x1e' || c == '\x1f' || c == '\x85' ||
  c == '\xa0' || c == '\u1680' ||
  c == '\u2000' || c == '\u2001' || c == '\u2002' || c == '\u2003' ||
  c == '\u2004' || c == '\u2005' || c == '\u2006' || c == '\u2007' ||
  c == '\u2008' || c == '\u2009' || c == '\u200a' ||
  c == '\u2028' || c == '\u2029' || c == '\u202f' || c == '\u205f' || c == '\u3000'

/-- Python `s.strip()`. -/
def pyStrip (cs : List Char) : List Char :=
  ((cs.dropWhile isPySpace).reverse.dropWhile isPySpace).reverse

/-- Python `s.rstrip("\n")` (used by the line merger). -/
def rstripNewlines (cs : List Char) : List Char :=
  (cs.reverse.dropWhile (fun c => c == '\n')).reverse

/-- Python `s.rstrip()` (used on the final joined output). -/
def rstripWS (cs : List Char) : List Char :=
  (cs.reverse.dropWhile isPySpace).reverse

/-- Line-break characters recognised by Python `str.splitlines`
(besides the two-character sequence CR LF). -/
def isLineBreakChar (c : Char) : Bool :=
  c == '\n' || c == '\r' || c == '\x0b' || c == '\x0c' || c == '\x1c' ||
  c == '\x1d' || c == '\x1e' || c == '\x85' || c == '\u2028' || c == '\u2029'

/-- Worker for `splitLines`; `acc` holds the current line reversed. -/
def splitLinesAux (acc : List Char) : List Char → List (List Char)
  | [] => if acc = [] then [] else [acc.reverse]
  | '\r' :: '\n' :: rest => acc.reverse :: splitLinesAux [] rest
  | c :: rest =>
    if isLineBreakChar c then acc.reverse :: splitLinesAux [] rest
    else splitLinesAux (c :: acc) rest

/-- Python `text.splitlines()`. -/
def splitLines (cs : List Char) : List (List Char) :=
  splitLinesAux [] cs

/-- True when `cs` starts with the character `c`. -/
def startsWithChar (c : Char) (cs : List Char) : Bool :=
  match cs with
  | [] => false
  | x :: _ => x == c

/-- True when `cs` ends with the character `c`. -/
def endsWithChar (c : Char) (cs : List Char) : Bool :=
  startsWithChar c cs.reverse

/-- Python `c in s` for a single character. -/
def containsChar (c : Char) (cs : List Char) : Bool :=
  cs.any (fun x => x == c)

/-- Structural list prefix test. -/
def isPrefixOfL : List Char → List Char → Bool
  | [], _ => true
  | _ :: _, [] => false
  | a :: as, b :: bs => a == b && isPrefixOfL as bs

/-- Python `pat in s`: substring containment, as a scan that tries a
prefix match at every position. -/
def isInfixL (pat : List Char) : List Char → Bool
  | [] => isPrefixOfL pat []
  | c :: t => isPrefixOfL pat (c :: t) || isInfixL pat t

/-- Split at the first occurrence of `c`: Python `s.split(c, 1)`
(the pair is the part before and the part after the first `c`;
when `c` is absent the whole list is returned as the first component). -/
def breakAtChar (c : Char) : List Char → List Char × List Char
  | [] => ([], [])
  | x :: t =>
    if x == c then ([], t)
    else
      let p := breakAtChar c t
      (x :: p.1, p.2)

/-- Split around the last occurrence of `c`: models Python `s.rfind(c)`
together with the slices `s[:idx]` and `s[idx+1:]`. -/
def breakAtLastChar (c : Char) (cs : List Char) : List Char × List Char :=
  let p := breakAtChar c cs.reverse
  (p.2.reverse, p.1.reverse)

/-- One attempted match of `RUBY_RE` intended at the head of `cs`
(the regex is the backslash sequence r u b y followed by a brace group,
a closing-opening brace pair, a second group and a closing brace; each
group is a possibly empty run of characters other than the closing
brace).  On success returns the first group and the remainder after the
whole match. -/
def matchRuby : List Char → Option (List Char × List Char)
  | '\\' :: 'r' :: 'u' :: 'b' :: 'y' :: '\x7b' :: rest =>
    match rest.dropWhile (fun c => c != '\x7d') with
    | '\x7d' :: '\x7b' :: rest2 =>
      match rest2.dropWhile (fun c => c != '\x7d') with
      | '\x7d' :: rest3 => some (rest.takeWhile (fun c => c != '\x7d'), rest3)
      | _ => none
    | _ => none
  | _ => none

/-- Fueled left-to-right scan performing `RUBY_RE.sub(r"\1", s)`:
at each position, replace a match by its first group and continue after
it, otherwise keep the character and advance by one. -/
def stripRubyF : Nat → List Char → List Char
  | 0, cs => cs
  | _ + 1, [] => []
  | fuel + 1, c :: cs =>
    match matchRuby (c :: cs) with
    | some (base, rest) => base ++ stripRubyF fuel rest
    | none => c :: stripRubyF fuel cs

/-- The function `plain_text` of the source: strip every ruby span,
keeping only the base text. -/
def plain_text (s : List Char) : List Char :=
  stripRubyF s.length s

/-- True when some position of `cs` matches `RUBY_RE`. -/
def hasRubyMatch : List Char → Bool
  | [] => false
  | c :: t => (matchRuby (c :: t)).isSome || hasRubyMatch t

/-- Fueled check that every occurrence of the five-character ruby token
in the string heads a well-formed `RUBY_RE` span whose base is itself
token-free: the balanced-annotation-spans hypothesis of the spec. -/
def balancedRubyF : Nat → List Char → Bool
  | 0, cs => cs.isEmpty
  | _ + 1, [] => true
  | fuel + 1, c :: t =>
    if isPrefixOfL "\\ruby".data (c :: t) then
      match matchRuby (c :: t) with
      | some (b, r) => !isInfixL "\\ruby".data b && balancedRubyF fuel r
      | none => false
    else balancedRubyF fuel t

/-- Every ruby token occurrence heads a well-formed span. -/
def balancedRuby (cs : List Char) : Bool :=
  balancedRubyF cs.length cs

/-- The literal six characters opening a ruby span. -/
def rubyHead : List Char :=
  ['\\', 'r', 'u', 'b', 'y', '\x7b']

/-- A fully rendered ruby span with base `b` and reading `r`. -/
def renderSpan (b r : List Char) : List Char :=
  rubyHead ++ b ++ '\x7d' :: '\x7b' :: (r ++ ['\x7d'])

/-- A piece of an input line: a plain segment or a ruby span. -/
inductive Piece where
  | plainSeg (s : List Char)
  | span (b r : List Char)
deriving DecidableEq, Repr

/-- Rendering of a piece back to its source text. -/
def renderPiece : Piece → List Char
  | Piece.plainSeg s => s
  | Piece.span b r => renderSpan b r

/-- Rendering of a piece list: their concatenation. -/
def renderPieces (ps : List Piece) : List Char :=
  (ps.map renderPiece).flatten

/-- Well-formedness of a piece: plain segments and base texts are free
of backslashes, and both bracket groups are free of closing braces. -/
def pieceGood : Piece → Bool
  | Piece.plainSeg s => s.all (fun c => c != '\\')
  | Piece.span b r =>
    b.all (fun c => c != '\\' && c != '\x7d') && r.all (fun c => c != '\x7d')

/-- The plain-text projection of a piece. -/
def stripPiece : Piece → List Char
  | Piece.plainSeg s => s
  | Piece.span b _ => b

/-- The closing test of the merger: the text ends with a closing
parenthetical bracket of either width. -/
def closesParen (b : List Char) : Bool :=
  endsWithChar '）' b || endsWithChar ')' b

/-- The condition under which the merger opens its accumulator buffer on
a line: the stripped line starts with an opening parenthetical bracket
and does not end with a closing one. -/
def opensParen (l : List Char) : Bool :=
  let stripped := pyStrip (rstripNewlines l)
  (startsWithChar '（' stripped || startsWithChar '(' stripped) &&
  !(closesParen stripped)

/-- Worker for `merge_parenthetical_lines`; the first argument is the
parenthetical accumulator buffer (`paren_buf` in the source). -/
def mergeAux : Option (List Char) → List (List Char) → List (List Char)
  | some b, [] => [b]
  | none, [] => []
  | some b, line :: rest =>
    let b2 := b ++ pyStrip (rstripNewlines line)
    if closesParen b2 then b2 :: mergeAux none rest
    else mergeAux (some b2) rest
  | none, line :: rest =>
    if opensParen line then mergeAux (some (pyStrip (rstripNewlines line))) rest
    else rstripNewlines line :: mergeAux none rest

/-- The function `merge_parenthetical_lines` of the source. -/
def merge_parenthetical_lines (lines : List (List Char)) : List (List Char) :=
  mergeAux none lines

/-- The anchored alternation `SKIP_RE` of the source, searched against a
line (all alternatives are anchored at the start of the string). -/
def skipMatch (cs : List Char) : Bool :=
  isPrefixOfL "周星馳-".data cs ||
  isPrefixOfL "由 Admin".data (cs.dropWhile isPySpace) ||
  isPrefixOfL "Admin 在".data (cs.dropWhile isPySpace) ||
  cs.dropWhile isPySpace = "Admin".data ||
  isPrefixOfL "文章數".data (cs.dropWhile isPySpace) ||
  isPrefixOfL "注冊日期".data (cs.dropWhile isPySpace) ||
  isPrefixOfL "LIKEDISLIKE".data (cs.dropWhile isPySpace) ||
  isPrefixOfL "回復：".data (cs.dropWhile isPySpace)

/-- The discard test of the classifier: `SKIP_RE.search(plain)` or the
pagination marker substring. -/
def isNoiseLine (plain : List Char) : Bool :=
  skipMatch plain || isInfixL "作了第".data plain

/-- The constant `STAGE_NAMES` of the source. -/
def STAGE_NAMES : List (List Char) :=
  ["外景".data, "內景".data, "場景".data]

/-- Membership in `STAGE_NAMES`. -/
def isStageName (p : List Char) : Bool :=
  STAGE_NAMES.any (fun n => p = n)

/-- Extraction of the parenthetical performance note from a dialogue
header name (source lines 84 to 92): if the name contains an opening
bracket and ends with the matching closing bracket, the enclosed text is
the note and is removed from the name; the full-width pair is tried
first, then the half-width pair.  Returns the optional note and the
remaining name. -/
def extractNote (nameRaw : List Char) : Option (List Char) × List Char :=
  if containsChar '（' nameRaw && endsWithChar '）' nameRaw then
    (some (pyStrip (breakAtLastChar '（' nameRaw).2.dropLast),
     pyStrip (breakAtLastChar '（' nameRaw).1)
  else if containsChar '(' nameRaw && endsWithChar ')' nameRaw then
    (some (pyStrip (breakAtLastChar '(' nameRaw).2.dropLast),
     pyStrip (breakAtLastChar '(' nameRaw).1)
  else (none, nameRaw)

/-- A dialogue block: speaker name, optional performance note, and the
accumulated dialogue lines. -/
structure DialogueB where
  char : List Char
  stage : Option (List Char)
  lines : List (List Char)
deriving DecidableEq, Repr

/-- A classified block: stage direction or dialogue. -/
inductive Block where
  | stage (text : List Char)
  | dialogue (d : DialogueB)
deriving DecidableEq, Repr

/-- Classifier state: the blocks emitted so far whose dialogue lines can
no longer grow, the current dialogue block still eligible to receive
continuation lines (`last_dialogue` in the source, always the most
recent block when set), and the `prev_blank` flag. -/
structure ClassifyState where
  done : List Block
  cur : Option DialogueB
  prevBlank : Bool
deriving DecidableEq, Repr

/-- Closing the current dialogue block into the block list. -/
def flushCur : Option DialogueB → List Block
  | some d => [Block.dialogue d]
  | none => []

/-- The full ordered block list represented by a classifier state. -/
def allBlocks (st : ClassifyState) : List Block :=
  st.done ++ flushCur st.cur

/-- The speaker-line branch of the classifier (source lines 71 to 103):
split at the first full-width colon; a stage-keyword name emits a stage
block, otherwise a fresh dialogue block seeded with the text part. -/
def speakerLine (st : ClassifyState) (s : List Char) : ClassifyState :=
  let nameRaw := pyStrip (breakAtChar '：' s).1
  let textRaw := pyStrip (breakAtChar '：' s).2
  if isStageName (plain_text nameRaw) then
    { done := st.done ++ flushCur st.cur ++
        [Block.stage (pyStrip (nameRaw ++ '：' :: textRaw))],
      cur := none, prevBlank := false }
  else
    { done := st.done ++ flushCur st.cur,
      cur := some ⟨(extractNote nameRaw).2, (extractNote nameRaw).1, [textRaw]⟩,
      prevBlank := false }

/-- The guard of the parenthetical-only branch (source line 106). -/
def isParenLine (s : List Char) : Bool :=
  startsWithChar '（' s || startsWithChar '(' s ||
  endsWithChar '）' s || endsWithChar ')' s

/-- The bracket stripping of the parenthetical-only branch
(source lines 109 to 117). -/
def parenInner (s : List Char) : List Char :=
  if (startsWithChar '（' s || startsWithChar '(' s) &&
     (endsWithChar '）' s || endsWithChar ')' s) then
    pyStrip ((s.drop 1).dropLast)
  else if startsWithChar '（' s || startsWithChar '(' s then
    pyStrip (s.drop 1)
  else if endsWithChar '）' s || endsWithChar ')' s then
    pyStrip s.dropLast
  else s

/-- The parenthetical-only branch of the classifier. -/
def parenLine (st : ClassifyState) (s : List Char) : ClassifyState :=
  { done := st.done ++ flushCur st.cur ++ [Block.stage (parenInner s)],
    cur := none, prevBlank := false }

/-- The final branch of the classifier (source lines 123 to 128):
append to the current dialogue when one is open and no blank line has
intervened, otherwise emit a stage block. -/
def fallbackLine (st : ClassifyState) (s : List Char) : ClassifyState :=
  match st.cur, st.prevBlank with
  | some d, false =>
    { done := st.done, cur := some ⟨d.char, d.stage, d.lines ++ [s]⟩,
      prevBlank := false }
  | _, _ =>
    { done := st.done ++ flushCur st.cur ++ [Block.stage s],
      cur := none, prevBlank := false }

/-- One iteration of the classifier loop of `format_script`
(source lines 61 to 128). -/
def classifyStep (st : ClassifyState) (raw : List Char) : ClassifyState :=
  if pyStrip raw = [] then { st with prevBlank := true }
  else if isNoiseLine (plain_text (pyStrip raw)) then st
  else if containsChar '：' (pyStrip raw) then speakerLine st (pyStrip raw)
  else if isParenLine (pyStrip raw) then parenLine st (pyStrip raw)
  else fallbackLine st (pyStrip raw)

/-- The block list produced by the classifier loop over the merged
lines. -/
def classifyBlocks (lines : List (List Char)) : List Block :=
  allBlocks (List.foldl classifyStep ⟨[], none, true⟩ lines)

/-- The rendered stage command. -/
def stageCmd (t : List Char) : List Char :=
  "\\stage\x7b".data ++ t ++ ['\x7d']

/-- The rendered character-name command. -/
def charnameCmd (c : List Char) : List Char :=
  "\\charname\x7b".data ++ c ++ ['\x7d']

/-- The opening line of the dialogue environment. -/
def beginDialogue : List Char :=
  "\\begin\x7bdialogue\x7d".data

/-- The closing line of the dialogue environment. -/
def endDialogue : List Char :=
  "\\end\x7bdialogue\x7d".data

/-- The serializer for one block (source lines 131 to 143).  A dialogue
note is printed only when it is present and non-empty (the Python
truthiness test on the stored note). -/
def serializeBlock : Block → List (List Char)
  | Block.stage t => [stageCmd t, []]
  | Block.dialogue d =>
    charnameCmd d.char ::
      ((match d.stage with
        | some t => if t = [] then [] else [stageCmd t]
        | none => []) ++
       beginDialogue :: (d.lines ++ [endDialogue, []]))

/-- Python `"\n".join(out_lines)`. -/
def joinLines : List (List Char) → List Char
  | [] => []
  | [l] => l
  | l :: ls => l ++ '\n' :: joinLines ls

/-- The function `format_script` of the source: merge, classify,
serialize, join with newlines, strip trailing whitespace and append one
newline. -/
def format_script (text : List Char) : List Char :=
  rstripWS (joinLines
    (((classifyBlocks (merge_parenthetical_lines (splitLines text))).map
        serializeBlock).flatten)) ++ ['\n']

/-! ## General helper lemmas -/

/-- The head of a `dropWhile` result, when present, fails the
predicate. -/
theorem dropWhile_head_false (p : Char → Bool) (l : List Char) :
    l.dropWhile p = [] ∨ ∃ c t, l.dropWhile p = c :: t ∧ p c = false := by
  induction l with
  | nil => exact Or.inl rfl
  | cons x t ih =>
    by_cases hx : p x = true
    · simpa [List.dropWhile_cons, hx] using ih
    · exact Or.inr ⟨x, t, by simp [List.dropWhile_cons, hx],
        by simpa using hx⟩

/-- The right-strip of a string is empty or ends in a non-whitespace
character. -/
theorem rstripWS_last (cs : List Char) :
    rstripWS cs = [] ∨
    ∃ q c, rstripWS cs = q ++ [c] ∧ isPySpace c = false := by
  rcases dropWhile_head_false isPySpace cs.reverse with h | ⟨c, t, h, hc⟩
  · exact Or.inl (by simp [rstripWS, h])
  · exact Or.inr ⟨t.reverse, c, by simp [rstripWS, h], hc⟩

/-! ## Line merger lemmas -/

/-- Length bound for the merger worker: at most one output line per
input line, plus one for a still-active buffer. -/
theorem mergeAux_length_le (lines : List (List Char)) :
    ∀ buf : Option (List Char),
      (mergeAux buf lines).length ≤
        lines.length + (match buf with | some _ => 1 | none => 0) := by
  induction lines with
  | nil => intro buf; cases buf <;> simp [mergeAux]
  | cons l rest ih =>
    intro buf
    cases buf with
    | some b =>
      have h1 : (mergeAux none rest).length ≤ rest.length := by
        simpa using ih none
      have h2 : (mergeAux (some (b ++ pyStrip (rstripNewlines l))) rest).length ≤
          rest.length + 1 := by
        simpa using ih (some (b ++ pyStrip (rstripNewlines l)))
      by_cases hc : closesParen (b ++ pyStrip (rstripNewlines l)) = true
      · simp only [mergeAux, hc, if_true, List.length_cons]
        omega
      · rw [Bool.not_eq_true] at hc
        simp only [mergeAux, hc, Bool.false_eq_true, if_false, List.length_cons]
        omega
    | none =>
      have h1 : (mergeAux none rest).length ≤ rest.length := by
        simpa using ih none
      have h2 : (mergeAux (some (pyStrip (rstripNewlines l))) rest).length ≤
          rest.length + 1 := by
        simpa using ih (some (pyStrip (rstripNewlines l)))
      by_cases ho : opensParen l = true
      · simp only [mergeAux, ho, if_true, List.length_cons]
        omega
      · rw [Bool.not_eq_true] at ho
        simp only [mergeAux, ho, Bool.false_eq_true, if_false, List.length_cons]
        omega

/-- When no line opens the buffer the merger emits one line per input
line. -/
theorem mergeAux_none_length (lines : List (List Char)) :
    (∀ l ∈ lines, opensParen l = false) →
    (mergeAux none lines).length = lines.length := by
  induction lines with
  | nil => intro _; rfl
  | cons l rest ih =>
    intro h
    have hl : opensParen l = false := h l (List.mem_cons_self l rest)
    have ih2 := ih fun x hx => h x (List.mem_cons_of_mem l hx)
    simp [mergeAux, hl, ih2]

/-- Claim C5: the merger never increases the number of lines, and when
no input line both starts with an opening parenthetical bracket and
lacks a closing bracket at its end (so the accumulator buffer is never
activated) the line count is preserved exactly. -/
theorem merge_line_count (lines : List (List Char)) :
    (merge_parenthetical_lines lines).length ≤ lines.length ∧
    ((∀ l ∈ lines, opensParen l = false) →
      (merge_parenthetical_lines lines).length = lines.length) := by
  constructor
  · simpa using mergeAux_length_le lines none
  · exact mergeAux_none_length lines

/-- Witness for C5 at a concrete one-line input. -/
theorem merge_line_count_witness :
    (∀ l ∈ ["張三：你好".data], opensParen l = false) ∧
    (merge_parenthetical_lines ["張三：你好".data]).length =
      (["張三：你好".data] : List (List Char)).length :=
  ⟨by decide, (merge_line_count ["張三：你好".data]).2 (by decide)⟩

/-- Claim C6: an accumulator buffer still active at end of input is
flushed as one final merged line (no text is dropped and no failure
occurs), both in general and on concrete unterminated inputs. -/
theorem merge_flush_unterminated :
    (∀ b : List Char, mergeAux (some b) [] = [b]) ∧
    merge_parenthetical_lines ["（他轉身".data] = ["（他轉身".data] ∧
    merge_parenthetical_lines ["（他轉".data, "身".data] = ["（他轉身".data] :=
  ⟨fun _ => rfl, by decide, by decide⟩

/-! ## Annotation stripper lemmas -/

/-- A string with no `RUBY_RE` match anywhere is returned unchanged by
the fueled stripper. -/
theorem stripRubyF_of_no_match :
    ∀ (fuel : Nat) (cs : List Char), hasRubyMatch cs = false →
      cs.length ≤ fuel → stripRubyF fuel cs = cs := by
  intro fuel
  induction fuel with
  | zero => intro cs _ hl; rfl
  | succ n ih =>
    intro cs h hl
    cases cs with
    | nil => rfl
    | cons c t =>
      have h2 : (matchRuby (c :: t)).isSome = false ∧ hasRubyMatch t = false := by
        simpa [hasRubyMatch] using h
      have hm : matchRuby (c :: t) = none :=
        Option.not_isSome_iff_eq_none.mp (by simp [h2.1])
      have ht : t.length ≤ n := by
        simpa using Nat.le_of_succ_le_succ (by simpa using hl)
      simp [stripRubyF, hm, ih t h2.2 ht]

/-- Claim C8: annotation stripping is the identity on strings that
contain no substring of the `RUBY_RE` shape. -/
theorem plain_text_idempotent_on_plain (cs : List Char)
    (h : hasRubyMatch cs = false) : plain_text cs = cs :=
  stripRubyF_of_no_match cs.length cs h le_rfl

/-- Witness for C8 at a concrete plain line. -/
theorem plain_text_idempotent_on_plain_witness :
    hasRubyMatch "張三：你好".data = false ∧
    plain_text "張三：你好".data = "張三：你好".data :=
  ⟨by decide, plain_text_idempotent_on_plain "張三：你好".data (by decide)⟩

/-! ## Serializer lemmas -/

/-- Claim C9: a stage block renders as its single command line followed
by one blank line, a dialogue block renders by its fixed template (with
the note line controlled by non-emptiness of the note), and the final
output is the newline join of the buffered lines with trailing
whitespace stripped and exactly one newline appended, so it always ends
in exactly one newline with no whitespace before it. -/
theorem serializer_output_shape :
    (∀ t, serializeBlock (Block.stage t) = [stageCmd t, []]) ∧
    (∀ ch note ls, serializeBlock (Block.dialogue ⟨ch, note, ls⟩) =
      [charnameCmd ch] ++
      (match note with
       | some t => if t = [] then [] else [stageCmd t]
       | none => []) ++
      [beginDialogue] ++ ls ++ [endDialogue, []]) ∧
    (∀ input, ∃ p, format_script input = p ++ ['\n'] ∧
      (p = [] ∨ ∃ q c, p = q ++ [c] ∧ isPySpace c = false)) := by
  refine ⟨fun t => rfl, fun ch note ls => ?_, fun input => ?_⟩
  · cases note with
    | none => simp [serializeBlock]
    | some t => by_cases ht : t = [] <;> simp [serializeBlock, ht]
  · exact ⟨rstripWS (joinLines
      (((classifyBlocks (merge_parenthetical_lines (splitLines input))).map
          serializeBlock).flatten)), rfl, rstripWS_last _⟩

/-! ## Classifier step lemmas -/

/-- A blank line only sets the blank flag. -/
theorem classifyStep_blank (st : ClassifyState) (raw : List Char)
    (h : pyStrip raw = []) :
    classifyStep st raw = { st with prevBlank := true } := by
  simp [classifyStep, h]

/-- A noise line is discarded without touching the state. -/
theorem classifyStep_noise (st : ClassifyState) (raw : List Char)
    (h1 : pyStrip raw ≠ [])
    (h2 : isNoiseLine (plain_text (pyStrip raw)) = true) :
    classifyStep st raw = st := by
  simp [classifyStep, h1, h2]

/-- A non-blank non-noise line containing the full-width colon is
handled by the speaker-line branch. -/
theorem classifyStep_colon (st : ClassifyState) (raw : List Char)
    (h1 : pyStrip raw ≠ [])
    (h2 : isNoiseLine (plain_text (pyStrip raw)) = false)
    (h3 : containsChar '：' (pyStrip raw) = true) :
    classifyStep st raw = speakerLine st (pyStrip raw) := by
  simp [classifyStep, h1, h2, h3]

/-- A non-blank non-noise colon-free line matching the parenthetical
pattern is handled by the parenthetical branch. -/
theorem classifyStep_paren (st : ClassifyState) (raw : List Char)
    (h1 : pyStrip raw ≠ [])
    (h2 : isNoiseLine (plain_text (pyStrip raw)) = false)
    (h3 : containsChar '：' (pyStrip raw) = false)
    (h4 : isParenLine (pyStrip raw) = true) :
    classifyStep st raw = parenLine st (pyStrip raw) := by
  simp [classifyStep, h1, h2, h3, h4]

/-- Any remaining non-blank non-noise line reaches the
continuation/stage-text fallback. -/
theorem classifyStep_fallback (st : ClassifyState) (raw : List Char)
    (h1 : pyStrip raw ≠ [])
    (h2 : isNoiseLine (plain_text (pyStrip raw)) = false)
    (h3 : containsChar '：' (pyStrip raw) = false)
    (h4 : isParenLine (pyStrip raw) = false) :
    classifyStep st raw = fallbackLine st (pyStrip raw) := by
  simp [classifyStep, h1, h2, h3, h4]

/-- The speaker-line branch closes the current dialogue and emits
exactly one new block: a stage block for a stage keyword, otherwise a
fresh dialogue block seeded with the text part. -/
theorem allBlocks_speakerLine (st : ClassifyState) (s : List Char) :
    ∃ b, allBlocks (speakerLine st s) = allBlocks st ++ [b] ∧
      ((∃ t, b = Block.stage t) ∨
       (∃ d, b = Block.dialogue d ∧ (speakerLine st s).cur = some d)) := by
  by_cases h : isStageName (plain_text (pyStrip (breakAtChar '：' s).1)) = true
  · refine ⟨Block.stage (pyStrip (pyStrip (breakAtChar '：' s).1 ++
      '：' :: pyStrip (breakAtChar '：' s).2)), ?_, Or.inl ⟨_, rfl⟩⟩
    simp [speakerLine, h, allBlocks, flushCur, List.append_assoc]
  · rw [Bool.not_eq_true] at h
    refine ⟨Block.dialogue ⟨(extractNote (pyStrip (breakAtChar '：' s).1)).2,
      (extractNote (pyStrip (breakAtChar '：' s).1)).1,
      [pyStrip (breakAtChar '：' s).2]⟩, ?_, Or.inr ⟨_, rfl, ?_⟩⟩
    · simp [speakerLine, h, allBlocks, flushCur, List.append_assoc]
    · simp [speakerLine, h]

/-- The parenthetical branch closes the current dialogue and emits one
stage block. -/
theorem allBlocks_parenLine (st : ClassifyState) (s : List Char) :
    allBlocks (parenLine st s) = allBlocks st ++ [Block.stage (parenInner s)] := by
  simp [parenLine, allBlocks, flushCur, List.append_assoc]

/-- After a blank line the fallback never appends to the open dialogue:
it emits a new stage block. -/
theorem fallbackLine_of_blank (st : ClassifyState) (s : List Char)
    (hb : st.prevBlank = true) :
    fallbackLine st s =
      { done := st.done ++ flushCur st.cur ++ [Block.stage s],
        cur := none, prevBlank := false } := by
  obtain ⟨d, c, p⟩ := st
  subst hb
  cases c <;> rfl

/-- Claim C2: a blank line sets the blank flag and changes nothing
else; a noise line changes nothing at all; and from a state whose blank
flag is set, any non-blank non-noise line adds exactly one new block
(a stage block or a fresh dialogue header) after the existing blocks,
so it is never appended to the lines of a prior dialogue block. -/
theorem blank_line_ends_continuation (st : ClassifyState) (raw : List Char) :
    (pyStrip raw = [] → classifyStep st raw = { st with prevBlank := true }) ∧
    (pyStrip raw ≠ [] → isNoiseLine (plain_text (pyStrip raw)) = true →
      classifyStep st raw = st) ∧
    (st.prevBlank = true → pyStrip raw ≠ [] →
      isNoiseLine (plain_text (pyStrip raw)) = false →
      ∃ b, allBlocks (classifyStep st raw) = allBlocks st ++ [b] ∧
        ((∃ t, b = Block.stage t) ∨
         (∃ d, b = Block.dialogue d ∧ (classifyStep st raw).cur = some d))) := by
  refine ⟨classifyStep_blank st raw, classifyStep_noise st raw, ?_⟩
  intro hb h1 h2
  by_cases h3 : containsChar '：' (pyStrip raw) = true
  · rw [classifyStep_colon st raw h1 h2 h3]
    exact allBlocks_speakerLine st (pyStrip raw)
  · rw [Bool.not_eq_true] at h3
    by_cases h4 : isParenLine (pyStrip raw) = true
    · rw [classifyStep_paren st raw h1 h2 h3 h4]
      exact ⟨Block.stage (parenInner (pyStrip raw)),
        allBlocks_parenLine st (pyStrip raw), Or.inl ⟨_, rfl⟩⟩
    · rw [Bool.not_eq_true] at h4
      rw [classifyStep_fallback st raw h1 h2 h3 h4,
        fallbackLine_of_blank st (pyStrip raw) hb]
      exact ⟨Block.stage (pyStrip raw),
        by simp [allBlocks, flushCur, List.append_assoc], Or.inl ⟨_, rfl⟩⟩

/-- Witness for C2: the three parts applied at concrete states and
lines (a blank line, a noise line, and a continuation candidate after a
blank line, which becomes a stage block instead of joining the open
dialogue). -/
theorem blank_line_ends_continuation_witness :
    (classifyStep ⟨[], some ⟨"甲".data, none, ["一".data]⟩, false⟩ " ".data =
      { done := [], cur := some ⟨"甲".data, none, ["一".data]⟩,
        prevBlank := true }) ∧
    (classifyStep ⟨[], some ⟨"甲".data, none, ["一".data]⟩, true⟩
      "回復：x".data = ⟨[], some ⟨"甲".data, none, ["一".data]⟩, true⟩) ∧
    (∃ b, allBlocks (classifyStep ⟨[], some ⟨"甲".data, none, ["一".data]⟩,
        true⟩ "三".data) =
      allBlocks ⟨[], some ⟨"甲".data, none, ["一".data]⟩, true⟩ ++ [b] ∧
      ((∃ t, b = Block.stage t) ∨
       (∃ d, b = Block.dialogue d ∧
         (classifyStep ⟨[], some ⟨"甲".data, none, ["一".data]⟩, true⟩
           "三".data).cur = some d))) :=
  ⟨(blank_line_ends_continuation _ _).1 (by decide),
   (blank_line_ends_continuation _ _).2.1 (by decide) (by decide),
   (blank_line_ends_continuation _ _).2.2 rfl (by decide) (by decide)⟩

/-- A dialogue block found in the flushed current slot is the current
dialogue. -/
theorem mem_flushCur (d : DialogueB) (cur : Option DialogueB)
    (hd : Block.dialogue d ∈ flushCur cur) : cur = some d := by
  cases cur with
  | none => simp [flushCur] at hd
  | some d0 =>
    simp [flushCur] at hd
    rw [hd]

/-- The invariant of claim C4: every dialogue block held by the state
has a non-empty line list. -/
def linesNonemptyInv (st : ClassifyState) : Prop :=
  (∀ d, Block.dialogue d ∈ st.done → d.lines ≠ []) ∧
  (∀ d, st.cur = some d → d.lines ≠ [])

/-- One classifier step preserves the non-empty-lines invariant. -/
theorem linesNonemptyInv_step (st : ClassifyState) (raw : List Char)
    (h : linesNonemptyInv st) : linesNonemptyInv (classifyStep st raw) := by
  obtain ⟨h1, h2⟩ := h
  have hdone : ∀ d, Block.dialogue d ∈ st.done ++ flushCur st.cur → d.lines ≠ [] := by
    intro d hd
    rcases List.mem_append.mp hd with hd | hd
    · exact h1 d hd
    · exact h2 d (mem_flushCur d st.cur hd)
  by_cases hb : pyStrip raw = []
  · rw [classifyStep_blank st raw hb]
    exact ⟨h1, h2⟩
  · by_cases hn : isNoiseLine (plain_text (pyStrip raw)) = true
    · rw [classifyStep_noise st raw hb hn]
      exact ⟨h1, h2⟩
    · rw [Bool.not_eq_true] at hn
      by_cases hc : containsChar '：' (pyStrip raw) = true
      · rw [classifyStep_colon st raw hb hn hc]
        unfold speakerLine
        by_cases hs : isStageName (plain_text
            (pyStrip (breakAtChar '：' (pyStrip raw)).1)) = true
        · simp only [hs, if_true]
          refine ⟨?_, ?_⟩
          · intro d hd
            simp only [List.append_assoc, List.mem_append,
              List.mem_singleton] at hd
            rcases hd with hd | hd | hd
            · exact h1 d hd
            · exact h2 d (mem_flushCur d st.cur hd)
            · exact absurd hd (by simp)
          · intro d hd
            exact absurd hd (by simp)
        · rw [Bool.not_eq_true] at hs
          simp only [hs, Bool.false_eq_true, if_false]
          refine ⟨hdone, ?_⟩
          intro d hd
          simp only [Option.some.injEq] at hd
          rw [← hd]
          simp
      · rw [Bool.not_eq_true] at hc
        by_cases hp : isParenLine (pyStrip raw) = true
        · rw [classifyStep_paren st raw hb hn hc hp]
          refine ⟨?_, ?_⟩
          · intro d hd
            simp only [parenLine, List.append_assoc, List.mem_append,
              List.mem_singleton] at hd
            rcases hd with hd | hd | hd
            · exact h1 d hd
            · exact h2 d (mem_flushCur d st.cur hd)
            · exact absurd hd (by simp)
          · intro d hd
            exact absurd hd (by simp [parenLine])
        · rw [Bool.not_eq_true] at hp
          rw [classifyStep_fallback st raw hb hn hc hp]
          unfold fallbackLine
          cases hcur : st.cur with
          | some d0 =>
            cases hpb : st.prevBlank with
            | false =>
              refine ⟨fun d hd => h1 d hd, ?_⟩
              intro d hd
              simp only [Option.some.injEq] at hd
              rw [← hd]
              have := h2 d0 hcur
              simp [this]
            | true =>
              refine ⟨?_, fun d hd => absurd hd (by simp)⟩
              intro d hd
              simp only [List.append_assoc, List.mem_append,
                List.mem_singleton, flushCur] at hd
              rcases hd with hd | hd | hd
              · exact h1 d hd
              · rw [show d = d0 by simpa using hd]
                exact h2 d0 hcur
              · exact absurd hd (by simp)
          | none =>
            refine ⟨?_, fun d hd => absurd hd (by simp)⟩
            intro d hd
            simp only [flushCur, List.append_nil, List.append_assoc,
              List.mem_append, List.mem_singleton] at hd
            rcases hd with hd | hd
            · exact h1 d hd
            · exact absurd hd (by simp)

/-- The non-empty-lines invariant is preserved along the whole
classifier loop. -/
theorem linesNonemptyInv_foldl (lines : List (List Char)) :
    ∀ st, linesNonemptyInv st →
      linesNonemptyInv (List.foldl classifyStep st lines) := by
  induction lines with
  | nil => intro st h; exact h
  | cons l rest ih => intro st h; exact ih _ (linesNonemptyInv_step st l h)

/-- Claim C4: every dialogue block produced by the classifier, on any
input line sequence (hence after any prefix of the processing), has a
non-empty lines list. -/
theorem dialogue_lines_nonempty (lines : List (List Char)) (d : DialogueB)
    (h : Block.dialogue d ∈ classifyBlocks lines) : d.lines ≠ [] := by
  obtain ⟨h1, h2⟩ := linesNonemptyInv_foldl lines ⟨[], none, true⟩
    ⟨fun d hd => absurd hd (by simp), fun d hd => by cases hd⟩
  unfold classifyBlocks allBlocks at h
  rcases List.mem_append.mp h with hd | hd
  · exact h1 d hd
  · exact h2 d (mem_flushCur d _ hd)

/-- Witness for C4 at a concrete dialogue. -/
theorem dialogue_lines_nonempty_witness :
    Block.dialogue ⟨"張三".data, none, ["你好".data]⟩ ∈
      classifyBlocks ["張三：你好".data] ∧
    (⟨"張三".data, none, ["你好".data]⟩ : DialogueB).lines ≠ [] :=
  ⟨by decide, dialogue_lines_nonempty ["張三：你好".data]
    ⟨"張三".data, none, ["你好".data]⟩ (by decide)⟩

/-- Claim C3 (amendment-free): a non-blank non-noise colon line whose
name part projects to a stage keyword emits a stage block whose text is
the rejoined name, separator and text (and clears the current
dialogue); the concrete scene line serializes to the expected stage
command. -/
theorem stage_keyword_header (st : ClassifyState) (raw : List Char)
    (h1 : pyStrip raw ≠ [])
    (h2 : isNoiseLine (plain_text (pyStrip raw)) = false)
    (h3 : containsChar '：' (pyStrip raw) = true)
    (h4 : isStageName (plain_text
      (pyStrip (breakAtChar '：' (pyStrip raw)).1)) = true) :
    classifyStep st raw =
      { done := st.done ++ flushCur st.cur ++
          [Block.stage (pyStrip (pyStrip (breakAtChar '：' (pyStrip raw)).1 ++
            '：' :: pyStrip (breakAtChar '：' (pyStrip raw)).2))],
        cur := none, prevBlank := false } ∧
    format_script "外景：海邊".data = "\\stage\x7b外景：海邊\x7d\n".data := by
  constructor
  · rw [classifyStep_colon st raw h1 h2 h3]
    simp [speakerLine, h4]
  · decide

/-- Witness for C3 at the concrete scene line. -/
theorem stage_keyword_header_witness :
    classifyStep ⟨[], none, true⟩ "外景：海邊".data =
      { done := ([] : List Block) ++ flushCur none ++
          [Block.stage (pyStrip (pyStrip
              (breakAtChar '：' (pyStrip "外景：海邊".data)).1 ++
            '：' :: pyStrip (breakAtChar '：' (pyStrip "外景：海邊".data)).2))],
        cur := none, prevBlank := false } ∧
    format_script "外景：海邊".data = "\\stage\x7b外景：海邊\x7d\n".data :=
  stage_keyword_header ⟨[], none, true⟩ "外景：海邊".data
    (by decide) (by decide) (by decide) (by decide)

/-- Counterexample to claim C1 as stated: the line contains a
half-width colon, is non-blank and non-noise, yet it is not split at
the colon and not classified as a speaker line — it falls through to
the stage-text fallback, keeping the colon inside the stage text. -/
theorem half_colon_falls_through_cex :
    containsChar ':' (pyStrip "A: 你好".data) = true ∧
    containsChar '：' (pyStrip "A: 你好".data) = false ∧
    pyStrip "A: 你好".data ≠ [] ∧
    isNoiseLine (plain_text (pyStrip "A: 你好".data)) = false ∧
    classifyBlocks ["A: 你好".data] = [Block.stage "A: 你好".data] ∧
    format_script "A: 你好".data = "\\stage\x7bA: 你好\x7d\n".data :=
  ⟨by decide, by decide, by decide, by decide, by decide, by decide⟩

/-- Claim C1 as amended: only the full-width colon acts as the
speaker/text separator.  A merged non-blank non-noise line containing
the full-width colon is handled by the speaker-line branch (split at
the first full-width colon, emitting exactly one new block), while a
line without it — in particular one containing only the half-width
colon — that does not match the parenthetical pattern falls through to
the continuation/stage-text fallback. -/
theorem colon_separator_behavior (st : ClassifyState) (raw : List Char)
    (h1 : pyStrip raw ≠ [])
    (h2 : isNoiseLine (plain_text (pyStrip raw)) = false) :
    (containsChar '：' (pyStrip raw) = true →
      classifyStep st raw = speakerLine st (pyStrip raw) ∧
      ∃ b, allBlocks (classifyStep st raw) = allBlocks st ++ [b]) ∧
    (containsChar '：' (pyStrip raw) = false →
      isParenLine (pyStrip raw) = false →
      classifyStep st raw = fallbackLine st (pyStrip raw)) := by
  constructor
  · intro h3
    refine ⟨classifyStep_colon st raw h1 h2 h3, ?_⟩
    rw [classifyStep_colon st raw h1 h2 h3]
    obtain ⟨b, hb, -⟩ := allBlocks_speakerLine st (pyStrip raw)
    exact ⟨b, hb⟩
  · exact classifyStep_fallback st raw h1 h2

/-- Witness for C1 at concrete full-width and half-width lines. -/
theorem colon_separator_behavior_witness :
    (classifyStep ⟨[], none, true⟩ "張三：你好".data =
       speakerLine ⟨[], none, true⟩ (pyStrip "張三：你好".data) ∧
     ∃ b, allBlocks (classifyStep ⟨[], none, true⟩ "張三：你好".data) =
       allBlocks ⟨[], none, true⟩ ++ [b]) ∧
    classifyStep ⟨[], none, true⟩ "A: 你好".data =
      fallbackLine ⟨[], none, true⟩ (pyStrip "A: 你好".data) :=
  ⟨(colon_separator_behavior ⟨[], none, true⟩ "張三：你好".data
      (by decide) (by decide)).1 (by decide),
   (colon_separator_behavior ⟨[], none, true⟩ "A: 你好".data
      (by decide) (by decide)).2 (by decide) (by decide)⟩

/-- A run of lines that are all blank or noise leaves an empty
classifier state empty. -/
theorem foldl_discard (lines : List (List Char)) :
    ∀ st : ClassifyState, st.done = [] → st.cur = none →
      (∀ l ∈ lines, pyStrip l = [] ∨
        isNoiseLine (plain_text (pyStrip l)) = true) →
      (List.foldl classifyStep st lines).done = [] ∧
      (List.foldl classifyStep st lines).cur = none := by
  induction lines with
  | nil => intro st h1 h2 _; exact ⟨h1, h2⟩
  | cons l rest ih =>
    intro st h1 h2 h
    have hrest : ∀ x ∈ rest, pyStrip x = [] ∨
        isNoiseLine (plain_text (pyStrip x)) = true :=
      fun x hx => h x (List.mem_cons_of_mem l hx)
    by_cases hb : pyStrip l = []
    · rw [List.foldl_cons, classifyStep_blank st l hb]
      exact ih _ h1 h2 hrest
    · rcases h l (List.mem_cons_self l rest) with hb2 | hn
      · exact absurd hb2 hb
      · rw [List.foldl_cons, classifyStep_noise st l hb hn]
        exact ih _ h1 h2 hrest

/-- Claim C10: an empty parenthetical performance note is extracted as
the empty string; the serializer omits the note line exactly when the
stored note is empty; an input whose merged lines are all blank or
noise produces exactly one newline; and the concrete empty-note header
serializes without any stage line. -/
theorem empty_note_and_empty_output :
    extractNote "李四（）".data = (some [], "李四".data) ∧
    (∀ ch ls, serializeBlock (Block.dialogue ⟨ch, some [], ls⟩) =
      [charnameCmd ch, beginDialogue] ++ ls ++ [endDialogue, []]) ∧
    (∀ input, (∀ l ∈ merge_parenthetical_lines (splitLines input),
        pyStrip l = [] ∨ isNoiseLine (plain_text (pyStrip l)) = true) →
      format_script input = ['\n']) ∧
    format_script "李四（）：你來了".data =
      "\\charname\x7b李四\x7d\n\\begin\x7bdialogue\x7d\n你來了\n\\end\x7bdialogue\x7d\n".data := by
  refine ⟨by decide, fun ch ls => by simp [serializeBlock], ?_, by decide⟩
  intro input h
  obtain ⟨hd, hc⟩ := foldl_discard (merge_parenthetical_lines (splitLines input))
    ⟨[], none, true⟩ rfl rfl h
  simp [format_script, classifyBlocks, allBlocks, hd, hc, flushCur,
    joinLines, rstripWS]

/-- Witness for C10 at a concrete noise-and-blank input. -/
theorem empty_note_and_empty_output_witness :
    (∀ l ∈ merge_parenthetical_lines (splitLines "由 Admin\n\n".data),
      pyStrip l = [] ∨ isNoiseLine (plain_text (pyStrip l)) = true) ∧
    format_script "由 Admin\n\n".data = ['\n'] :=
  ⟨by decide, empty_note_and_empty_output.2.2.1 "由 Admin\n\n".data (by decide)⟩

/-! ## Annotation stripper: structure of substitution on balanced input -/

/-- A successful `RUBY_RE` match starts with a backslash. -/
theorem matchRuby_head (cs : List Char) (b r : List Char)
    (h : matchRuby cs = some (b, r)) : ∃ t, cs = '\\' :: t := by
  unfold matchRuby at h
  split at h
  · exact ⟨_, rfl⟩
  · exact absurd h (by simp)

/-- Dropping a prefix never lengthens a list. -/
theorem dropWhile_length_le (p : Char → Bool) (l : List Char) :
    (l.dropWhile p).length ≤ l.length := by
  induction l with
  | nil => simp
  | cons a t ih =>
    by_cases h : p a = true
    · simp only [List.dropWhile_cons, h, if_true, List.length_cons]
      omega
    · rw [Bool.not_eq_true] at h
      simp [List.dropWhile_cons, h]

/-- A successful `RUBY_RE` match consumes at least one character. -/
theorem matchRuby_length (cs : List Char) (b r : List Char)
    (h : matchRuby cs = some (b, r)) : r.length < cs.length := by
  unfold matchRuby at h
  split at h
  · next rest =>
    split at h
    · next rest2 heq1 =>
      split at h
      · next rest3 heq2 =>
        have l1 := dropWhile_length_le (fun c => c != '\x7d') rest
        have l2 := dropWhile_length_le (fun c => c != '\x7d') rest2
        rw [heq1] at l1
        rw [heq2] at l2
        simp only [List.length_cons] at l1 l2
        have h3 : r = rest3 := by
          simp only [Option.some.injEq, Prod.mk.injEq] at h
          exact h.2.symm
        subst h3
        simp only [List.length_cons]
        omega
      · exact absurd h (by simp)
    · exact absurd h (by simp)
  · exact absurd h (by simp)

/-- The stripper does not depend on the fuel once the fuel covers the
length of the input. -/
theorem stripRubyF_congr :
    ∀ (fuel fuel' : Nat) (cs : List Char), cs.length ≤ fuel →
      cs.length ≤ fuel' → stripRubyF fuel cs = stripRubyF fuel' cs := by
  intro fuel
  induction fuel with
  | zero =>
    intro fuel' cs h _
    have hnil : cs = [] := List.eq_nil_of_length_eq_zero (Nat.le_zero.mp h)
    subst hnil
    cases fuel' <;> rfl
  | succ n ih =>
    intro fuel' cs h h'
    cases cs with
    | nil => cases fuel' <;> rfl
    | cons c t =>
      cases fuel' with
      | zero => simp at h'
      | succ m =>
        simp only [stripRubyF]
        cases hm : matchRuby (c :: t) with
        | some p =>
          obtain ⟨b, r⟩ := p
          have hlt : r.length < (c :: t).length := matchRuby_length _ _ _ hm
          simp only [List.length_cons] at h h' hlt
          show b ++ stripRubyF n r = b ++ stripRubyF m r
          rw [ih m r (by omega) (by omega)]
        | none =>
          simp only [List.length_cons] at h h'
          show c :: stripRubyF n t = c :: stripRubyF m t
          rw [ih m t (by omega) (by omega)]

/-- Scanning past a backslash-free segment copies it unchanged. -/
theorem stripRubyF_plain_skip :
    ∀ (s : List Char), (∀ c ∈ s, c ≠ '\\') →
      ∀ (rest : List Char) (fuel : Nat), (s ++ rest).length ≤ fuel →
      stripRubyF fuel (s ++ rest) = s ++ stripRubyF fuel rest := by
  intro s
  induction s with
  | nil => intro _ rest fuel _; rfl
  | cons c s' ih =>
    intro hs rest fuel hl
    cases fuel with
    | zero => simp at hl
    | succ n =>
      have hc : c ≠ '\\' := hs c (List.mem_cons_self c s')
      have hm : matchRuby (c :: (s' ++ rest)) = none := by
        cases hmm : matchRuby (c :: (s' ++ rest)) with
        | none => rfl
        | some p =>
          obtain ⟨b, r⟩ := p
          obtain ⟨t, ht⟩ := matchRuby_head _ b r hmm
          injection ht with h1 _
          exact absurd h1 hc
      have hl2 : (s' ++ rest).length ≤ n := by
        simp only [List.cons_append, List.length_cons] at hl
        omega
      have hl3 : rest.length ≤ n := by
        simp only [List.length_append] at hl2
        omega
      rw [show (c :: s') ++ rest = c :: (s' ++ rest) from rfl]
      simp only [stripRubyF, hm]
      rw [ih (fun x hx => hs x (List.mem_cons_of_mem c hx)) rest n hl2]
      rw [stripRubyF_congr n (n + 1) rest hl3 (by omega)]
      simp

/-- If a run of characters satisfying `p` is followed by a character
failing `p`, `takeWhile` returns exactly that run. -/
theorem takeWhile_append_all (p : Char → Bool) (b : List Char) (x : Char)
    (ys : List Char) (hb : ∀ c ∈ b, p c = true) (hx : p x = false) :
    (b ++ x :: ys).takeWhile p = b := by
  induction b with
  | nil => simp [List.takeWhile_cons, hx]
  | cons a t ih =>
    have ha : p a = true := hb a (List.mem_cons_self a t)
    simp only [List.cons_append, List.takeWhile_cons, ha, if_true]
    rw [ih fun c hc => hb c (List.mem_cons_of_mem a hc)]

/-- If a run of characters satisfying `p` is followed by a character
failing `p`, `dropWhile` drops exactly that run. -/
theorem dropWhile_append_all (p : Char → Bool) (b : List Char) (x : Char)
    (ys : List Char) (hb : ∀ c ∈ b, p c = true) (hx : p x = false) :
    (b ++ x :: ys).dropWhile p = x :: ys := by
  induction b with
  | nil => simp [List.dropWhile_cons, hx]
  | cons a t ih =>
    have ha : p a = true := hb a (List.mem_cons_self a t)
    simp only [List.cons_append, List.dropWhile_cons, ha, if_true]
    exact ih fun c hc => hb c (List.mem_cons_of_mem a hc)

/-- The regex `RUBY_RE` matches a rendered span at its start, capturing
exactly the base and leaving exactly the remainder. -/
theorem matchRuby_renderSpan (b r rest : List Char)
    (hb : ∀ c ∈ b, (c != '\x7d') = true)
    (hr : ∀ c ∈ r, (c != '\x7d') = true) :
    matchRuby (renderSpan b r ++ rest) = some (b, rest) := by
  have hx : (('\x7d' : Char) != '\x7d') = false := by decide
  have e1 : renderSpan b r ++ rest =
      '\\' :: 'r' :: 'u' :: 'b' :: 'y' :: '\x7b' ::
        (b ++ '\x7d' :: ('\x7b' :: (r ++ '\x7d' :: rest))) := by
    simp [renderSpan, rubyHead]
  rw [e1]
  simp only [matchRuby, dropWhile_append_all _ b _ _ hb hx,
    dropWhile_append_all _ r _ _ hr hx, takeWhile_append_all _ b _ _ hb hx]

/-- Stripping a well-formed span at the head of the input yields its
base followed by the stripped remainder. -/
theorem stripRubyF_span (b r rest : List Char) (fuel : Nat)
    (hb : ∀ c ∈ b, (c != '\x7d') = true)
    (hr : ∀ c ∈ r, (c != '\x7d') = true)
    (hl : (renderSpan b r ++ rest).length ≤ fuel) :
    stripRubyF fuel (renderSpan b r ++ rest) = b ++ stripRubyF fuel rest := by
  have hlen : (renderSpan b r ++ rest).length =
      b.length + r.length + rest.length + 9 := by
    simp [renderSpan, rubyHead]
    omega
  cases fuel with
  | zero => omega
  | succ n =>
    have hm := matchRuby_renderSpan b r rest hb hr
    have e1 : renderSpan b r ++ rest =
        '\\' :: ('r' :: 'u' :: 'b' :: 'y' :: '\x7b' ::
          (b ++ '\x7d' :: ('\x7b' :: (r ++ '\x7d' :: rest)))) := by
      simp [renderSpan, rubyHead]
    rw [e1] at hm ⊢
    simp only [stripRubyF, hm]
    rw [stripRubyF_congr n (n + 1) rest (by omega) (by omega)]

/-- Stripping a concatenation of good pieces yields the concatenation
of their projections. -/
theorem stripRubyF_pieces :
    ∀ (ps : List Piece) (fuel : Nat), (∀ p ∈ ps, pieceGood p = true) →
      (renderPieces ps).length ≤ fuel →
      stripRubyF fuel (renderPieces ps) = (ps.map stripPiece).flatten := by
  intro ps
  induction ps with
  | nil => intro fuel _ _; cases fuel <;> rfl
  | cons p ps' ih =>
    intro fuel hgood hl
    have hrest : ∀ q ∈ ps', pieceGood q = true :=
      fun q hq => hgood q (List.mem_cons_of_mem p hq)
    have e : renderPieces (p :: ps') = renderPiece p ++ renderPieces ps' := by
      simp [renderPieces]
    rw [e] at hl ⊢
    cases p with
    | plainSeg s =>
      have hs : ∀ c ∈ s, c ≠ '\\' := by
        have hg := hgood _ (List.mem_cons_self _ _)
        simp only [pieceGood, List.all_eq_true, bne_iff_ne] at hg
        exact hg
      rw [show renderPiece (Piece.plainSeg s) = s from rfl] at hl ⊢
      rw [stripRubyF_plain_skip s hs (renderPieces ps') fuel hl]
      rw [ih fuel hrest (by simp only [List.length_append] at hl; omega)]
      simp [stripPiece]
    | span b r =>
      have hg := hgood _ (List.mem_cons_self _ _)
      simp only [pieceGood, Bool.and_eq_true, List.all_eq_true] at hg
      have hb7 : ∀ c ∈ b, (c != '\x7d') = true := fun c hc => (hg.1 c hc).2
      have hr7 : ∀ c ∈ r, (c != '\x7d') = true := fun c hc => hg.2 c hc
      rw [show renderPiece (Piece.span b r) = renderSpan b r from rfl] at hl ⊢
      rw [stripRubyF_span b r (renderPieces ps') fuel hb7 hr7 hl]
      rw [ih fuel hrest (by
        simp only [List.length_append] at hl
        omega)]
      simp [stripPiece]

/-- Unfolding of the substring test on a cons cell. -/
theorem isInfixL_cons (pat : List Char) (c : Char) (t : List Char) :
    isInfixL pat (c :: t) = (isPrefixOfL pat (c :: t) || isInfixL pat t) :=
  rfl

/-- A backslash-free string contains no ruby token. -/
theorem isInfixL_ruby_false (cs : List Char) (h : ∀ c ∈ cs, c ≠ '\\') :
    isInfixL "\\ruby".data cs = false := by
  induction cs with
  | nil => decide
  | cons c t ih =>
    have hc : c ≠ '\\' := h c (List.mem_cons_self c t)
    have hpre : isPrefixOfL "\\ruby".data (c :: t) = false := by
      rw [show "\\ruby".data = '\\' :: "ruby".data from rfl]
      unfold isPrefixOfL
      have : ('\\' == c) = false := by
        rw [beq_eq_false_iff_ne]
        exact fun hh => hc hh.symm
      rw [this]
      simp
    rw [isInfixL_cons, hpre]
    simpa using ih fun x hx => h x (List.mem_cons_of_mem c hx)

/-- The concatenated projection of good pieces is backslash-free. -/
theorem stripPieces_no_backslash (ps : List Piece)
    (h : ∀ p ∈ ps, pieceGood p = true) :
    ∀ c ∈ (ps.map stripPiece).flatten, c ≠ '\\' := by
  intro c hc
  rw [List.mem_flatten] at hc
  obtain ⟨l, hl, hcl⟩ := hc
  rw [List.mem_map] at hl
  obtain ⟨p, hp, rfl⟩ := hl
  have hg := h p hp
  cases p with
  | plainSeg s =>
    simp only [pieceGood, List.all_eq_true, bne_iff_ne] at hg
    exact hg c hcl
  | span b r =>
    simp only [pieceGood, Bool.and_eq_true, List.all_eq_true] at hg
    have h2 := hg.1 c hcl
    simp only [Bool.and_eq_true, bne_iff_ne] at h2
    exact h2.1

/-- Counterexample to claim C7 as stated: every ruby token of the input
heads a well-formed span (the input is balanced), yet the plain-text
projection still contains the ruby token — removal of the span glues
the plain fragment and the base into a new token. -/
theorem balanced_ruby_residual_cex :
    balancedRuby "\\rub\\ruby\x7by\x7d\x7br\x7d".data = true ∧
    isInfixL "\\ruby".data
      (plain_text "\\rub\\ruby\x7by\x7d\x7br\x7d".data) = true ∧
    plain_text "\\rub\\ruby\x7by\x7d\x7br\x7d".data = "\\ruby".data :=
  ⟨by decide, by decide, by decide⟩

/-- Claim C7 as amended: for every line built from well-formed
annotation spans and plain segments whose plain segments and base texts
are backslash-free (and whose bracket groups contain no closing brace),
one pass of substitution replaces each span by its base — the result is
the concatenation of the plain segments and bases — and the projection
contains no ruby token, hence no annotation construct. -/
theorem plain_text_removes_spans (ps : List Piece)
    (h : ∀ p ∈ ps, pieceGood p = true) :
    plain_text (renderPieces ps) = (ps.map stripPiece).flatten ∧
    isInfixL "\\ruby".data (plain_text (renderPieces ps)) = false := by
  have e := stripRubyF_pieces ps (renderPieces ps).length h le_rfl
  refine ⟨e, ?_⟩
  unfold plain_text
  rw [e]
  exact isInfixL_ruby_false _ (stripPieces_no_backslash ps h)

/-- Witness for C7 at a concrete good piece list. -/
theorem plain_text_removes_spans_witness :
    (∀ p ∈ [Piece.plainSeg "早".data, Piece.span "晨".data "chen".data],
      pieceGood p = true) ∧
    (plain_text (renderPieces [Piece.plainSeg "早".data,
        Piece.span "晨".data "chen".data]) =
      (([Piece.plainSeg "早".data, Piece.span "晨".data "chen".data]).map
        stripPiece).flatten ∧
     isInfixL "\\ruby".data (plain_text (renderPieces
       [Piece.plainSeg "早".data, Piece.span "晨".data "chen".data])) = false) :=
  ⟨by decide, plain_text_removes_spans _ (by decide)⟩
